import Mathlib

set_option maxHeartbeats 1000000

/-! ## Definitions: the embedded program -/

/-- Python `pattern-is-a-prefix` test on character lists: `charsStarts pat s`
is `True` when `s` starts with `pat` (helper for `str.startswith`). -/

def charsStarts : List Char → List Char → Bool
  | [], _ => true
  | _ :: _, [] => false
  | p :: ps, c :: cs => p == c && charsStarts ps cs

/-- Python `s.startswith(pat)`. -/

def pyStartsWith (s pat : String) : Bool := charsStarts pat.toList s.toList

/-- Python `s.endswith(pat)`. -/

def pyEndsWith (s pat : String) : Bool :=
  charsStarts pat.toList.reverse s.toList.reverse

/-- Python `s[:n]` (slicing past the end of the string is harmless). -/

def pyTake (s : String) (n : Nat) : String := String.mk (s.toList.take n)

/-- A Python class object, as the traversal and the wrappers observe it.
`pid` models object identity (two distinct class objects may carry the same
`__name__`).  The booleans record `hasattr(c, 'fit')`, `hasattr(c, 'predict')`,
`hasattr(c, 'transform')` and `issubclass(c, scikits.learn.base.ClassifierMixin)`. -/

structure PClass where
  pid : Nat
  name : String
  module : String
  hasFit : Bool
  hasPredict : Bool
  hasTransform : Bool
  classifierMixin : Bool
deriving DecidableEq

/-- A member of a module `__dict__`: either a class or a reference to one of
the `N` module objects of the graph. -/

abbrev SkMember (N : Nat) := Sum PClass (Fin N)

/-- A namespace graph of `N` module objects: each has a `__name__` and an
ordered `__dict__` of named members. -/

structure Graph (N : Nat) where
  name : Fin N → String
  dict : Fin N → List (String × SkMember N)

/-- The mutable state of `apply_to_scikits_algorithms`: `pm` is
`processed_modules`, `pc` is `processed_classes`, and `acted` records, in
order, the classes on which `action` was invoked. -/

structure WalkState (N : Nat) where
  pm : List (Fin N)
  pc : List PClass
  acted : List PClass
deriving DecidableEq

/-- The discovery predicate of `apply_to_scikits_algorithms` (lines 68–72 of
the source): the class has `fit`, `predict` or `transform`, and its defining
module name does not end with an underscore. -/

def eligible (c : PClass) : Bool :=
  (c.hasFit || c.hasPredict || c.hasTransform) && !(pyEndsWith c.module "_")

/-- The member loop of `apply_to_scikits_algorithms`, abstracted over the
recursive call `wm` used for module members.  Mirrors the source body:
underscore-named members are skipped; an unseen class member is appended to
`processed_classes` and, when `eligible`, acted on; a module member whose
`__name__` starts with `scikits.learn` is recursed into. -/

def walkMembersF (g : Graph N) (wm : WalkState N → Fin N → Option (WalkState N)) :
    WalkState N → List (String × SkMember N) → Option (WalkState N)
  | st, [] => some st
  | st, (nm, mem) :: rest =>
    if pyStartsWith nm "_" then walkMembersF g wm st rest
    else
      match mem with
      | Sum.inl c =>
        if c ∈ st.pc then walkMembersF g wm st rest
        else
          let st1 : WalkState N := { st with pc := st.pc ++ [c] }
          let st2 : WalkState N :=
            if eligible c then { st1 with acted := st1.acted ++ [c] } else st1
          walkMembersF g wm st2 rest
      | Sum.inr j =>
        if pyStartsWith (g.name j) "scikits.learn" then
          match wm st j with
          | none => none
          | some st' => walkMembersF g wm st' rest
        else walkMembersF g wm st rest

/-- The recursion of `apply_to_scikits_algorithms` on one module.  A module
already in `processed_modules` returns immediately; otherwise it is appended
and its `__dict__` is iterated.  One unit of fuel is consumed per module
entry, so the recursion depth of the Python original bounds the fuel needed. -/

def walkModule (g : Graph N) (fuel : Nat) : WalkState N → Fin N → Option (WalkState N) :=
  match fuel with
  | 0 => fun st m => if m ∈ st.pm then some st else none
  | fuel' + 1 => fun st m =>
    if m ∈ st.pm then some st
    else walkMembersF g (walkModule g fuel') { st with pm := st.pm ++ [m] } (g.dict m)

/-- Entry point of the source function: walk from `root` and return
`processed_classes` (the source's `return processed_classes`). -/

def apply_to_scikits_algorithms (g : Graph N) (fuel : Nat) (root : Fin N) :
    Option (List PClass) :=
  (walkModule g fuel ⟨[], [], []⟩ root).map (fun st => st.pc)

-- Sanity checks on a two-module cyclic graph (modules 0 ↔ 1).

def cKMeans : PClass :=
  { pid := 0, name := "KMeans", module := "scikits.learn.cluster",
    hasFit := true, hasPredict := true, hasTransform := false,
    classifierMixin := false }

def cHidden : PClass :=
  { pid := 1, name := "Hidden", module := "scikits.learn.cluster",
    hasFit := true, hasPredict := true, hasTransform := false,
    classifierMixin := false }

def gW : Graph 2 :=
  { name := fun i => if i = 0 then "scikits.learn" else "scikits.learn.cluster",
    dict := fun i =>
      if i = 0 then [("cluster", Sum.inr 1), ("KMeans", Sum.inl cKMeans)]
      else [("learn", Sum.inr 0), ("KMeans", Sum.inl cKMeans),
            ("_h", Sum.inl cHidden)] }

/-- Which of the three factories produced an adapter class. -/

inductive AdapterKind where
  | classifier
  | transformer
  | predictor
deriving DecidableEq

/-- The observable metadata of a synthesized `ScikitsNode` class: the wrapped
class, the derived `__name__` (wrapped name plus the fixed suffix), and the
static capability flags set by the factory. -/

structure Adapter where
  kind : AdapterKind
  wrapped : PClass
  name : String
  is_trainable : Bool
  is_invertible : Bool
  supported_dtypes : List String
deriving DecidableEq

/-- Metadata of `wrap_scikits_classifier scikits_class`: the class-level facts
of the generated node class (`__name__` suffixing, `is_trainable` is
`hasattr(scikits_class, 'fit')`, `is_invertible` is `False`, supported dtypes
are the two float widths). -/

def wrap_scikits_classifier (c : PClass) : Adapter :=
  { kind := AdapterKind.classifier, wrapped := c,
    name := c.name ++ "ScikitsLearnNode",
    is_trainable := c.hasFit, is_invertible := false,
    supported_dtypes := ["float32", "float64"] }

/-- Metadata of `wrap_scikits_transformer scikits_class`. -/

def wrap_scikits_transformer (c : PClass) : Adapter :=
  { kind := AdapterKind.transformer, wrapped := c,
    name := c.name ++ "ScikitsLearnNode",
    is_trainable := c.hasFit, is_invertible := false,
    supported_dtypes := ["float32", "float64"] }

/-- Metadata of `wrap_scikits_predictor scikits_class`. -/

def wrap_scikits_predictor (c : PClass) : Adapter :=
  { kind := AdapterKind.predictor, wrapped := c,
    name := c.name ++ "ScikitsLearnNode",
    is_trainable := c.hasFit, is_invertible := false,
    supported_dtypes := ["float32", "float64"] }

/-- `wrap_scikits_algorithms(scikits_class, nodes_list)`: skip classes whose
name starts with `Base` (`name[:4] == 'Base'`) or equals `LinearModel`;
otherwise route by `issubclass(_, ClassifierMixin)`, then `hasattr transform`,
then `hasattr predict`, appending at most one adapter to `nodes_list`. -/

def wrap_scikits_algorithms (c : PClass) (nodes_list : List Adapter) : List Adapter :=
  if pyTake c.name 4 = "Base" ∨ c.name = "LinearModel" then nodes_list
  else if c.classifierMixin then nodes_list ++ [wrap_scikits_classifier c]
  else if c.hasTransform then nodes_list ++ [wrap_scikits_transformer c]
  else if c.hasPredict then nodes_list ++ [wrap_scikits_predictor c]
  else nodes_list

/-- The `scikits_nodes` list of the source: the walk is run with the action
`lambda c: wrap_scikits_algorithms(c, scikits_nodes)`, so the final list is
the left fold of `wrap_scikits_algorithms` over the action-invocation
sequence recorded by the walk.  A fuel of `N` is always enough (proved
below); if it were not, the list is empty. -/

def scikits_nodes (g : Graph N) (root : Fin N) : List Adapter :=
  match walkModule g N ⟨[], [], []⟩ root with
  | some st => st.acted.foldl (fun l c => wrap_scikits_algorithms c l) []
  | none => []

/-- Python `dict` assignment `d[k] = v`: replace the value at an existing key
in place, else append the new binding. -/

def dictInsert (d : List (String × Adapter)) (k : String) (v : Adapter) :
    List (String × Adapter) :=
  match d with
  | [] => [(k, v)]
  | (k', v') :: rest =>
    if k' = k then (k', v) :: rest else (k', v') :: dictInsert rest k v

/-- Python `d[k]` lookup (keys are unique in a `dict`). -/

def dictGet : List (String × Adapter) → String → Option Adapter
  | [], _ => none
  | (k', v) :: rest, k => if k' = k then some v else dictGet rest k

/-- The registry-assembly loop: `for wrapped_c in scikits_nodes:
DICT_[wrapped_c.__name__] = wrapped_c`. -/

def DICT_build (nodes : List Adapter) : List (String × Adapter) :=
  nodes.foldl (fun d a => dictInsert d a.name a) []

/-- The registry `DICT_` of the source, for a given namespace graph. -/

def DICT_ (g : Graph N) (root : Fin N) : List (String × Adapter) :=
  DICT_build (scikits_nodes g root)

/-- The exception hierarchy fragment the module declares:
`class ScikitsException(mdp.NodeException)`. -/

inductive ExcClass where
  | NodeException
  | ScikitsException
deriving DecidableEq

/-- `issubclass` on the modelled exception classes: `ScikitsException` is
declared as a subclass of `mdp.NodeException`. -/

def excIsSubclass (a b : ExcClass) : Bool :=
  a == b || (a == ExcClass.ScikitsException && b == ExcClass.NodeException)

/-- A raised Python exception: its class and message. -/

structure PyError where
  cls : ExcClass
  msg : String
deriving DecidableEq

/-- The `_OUTPUTDIM_ERROR` message (quotes elided). -/

def _OUTPUTDIM_ERROR : String :=
  "output_dim keyword not supported. Please set the output dimensionality " ++
  "using scikits.learn keyword arguments (e.g. n_components, or k). " ++
  "See the docstring of this class for details."

/-- An instance of the wrapped scikits class, as built by
`scikits_class(**kwargs)`. -/

structure WrappedInst where
  cls : PClass
  kwargs : List (String × String)
deriving DecidableEq

/-- The state a successful `ScikitsNode.__init__` leaves behind: the node
fields set by the superclass constructor plus the `scikits_alg` attribute. -/

structure NodeInst where
  input_dim : Option Nat
  output_dim : Option Nat
  dtype : Option String
  scikits_alg : WrappedInst
deriving DecidableEq

/-- `ScikitsNode.__init__` of the classifier factory: raise
`ScikitsException(_OUTPUTDIM_ERROR)` when `output_dim is not None`, else call
the superclass constructor and build `scikits_class(**kwargs)`.  The second
component lists the wrapped-library constructor calls performed. -/

def ScikitsNode_classifier_init (c : PClass) (input_dim output_dim : Option Nat)
    (dtype : Option String) (kwargs : List (String × String)) :
    Except PyError NodeInst × List WrappedInst :=
  match output_dim with
  | some _ => (Except.error ⟨ExcClass.ScikitsException, _OUTPUTDIM_ERROR⟩, [])
  | none =>
    (Except.ok ⟨input_dim, none, dtype, ⟨c, kwargs⟩⟩, [⟨c, kwargs⟩])

/-- `ScikitsNode.__init__` of the transformer factory (same body as the
classifier one in the source). -/

def ScikitsNode_transformer_init (c : PClass) (input_dim output_dim : Option Nat)
    (dtype : Option String) (kwargs : List (String × String)) :
    Except PyError NodeInst × List WrappedInst :=
  match output_dim with
  | some _ => (Except.error ⟨ExcClass.ScikitsException, _OUTPUTDIM_ERROR⟩, [])
  | none =>
    (Except.ok ⟨input_dim, none, dtype, ⟨c, kwargs⟩⟩, [⟨c, kwargs⟩])

/-- `ScikitsNode.__init__` of the predictor factory (same body as the
classifier one in the source). -/

def ScikitsNode_predictor_init (c : PClass) (input_dim output_dim : Option Nat)
    (dtype : Option String) (kwargs : List (String × String)) :
    Except PyError NodeInst × List WrappedInst :=
  match output_dim with
  | some _ => (Except.error ⟨ExcClass.ScikitsException, _OUTPUTDIM_ERROR⟩, [])
  | none =>
    (Except.ok ⟨input_dim, none, dtype, ⟨c, kwargs⟩⟩, [⟨c, kwargs⟩])

/-- `ScikitsNode._label(self, x)` of the classifier factory:
`self.scikits_alg.predict(x)[:, newaxis]` — the flat prediction vector is
reshaped into a single column.  `predict` is the wrapped instance's method,
`x` the input batch (a list of rows). -/

def ScikitsNode_label {α β : Type} (predict : List (List α) → List β)
    (x : List (List α)) : List (List β) :=
  (predict x).map (fun v => [v])

/-- `ScikitsNode._execute(self, x)` of the transformer factory:
`return self.scikits_alg.transform(x)`. -/

def ScikitsNode_transformer_execute {α β : Type} (transform : α → β) (x : α) : β :=
  transform x

/-- The walk only appends to the three state lists. -/

def StExt (st st' : WalkState N) : Prop :=
  (∃ t, st'.pm = st.pm ++ t) ∧ (∃ u, st'.pc = st.pc ++ u) ∧
  (∃ v, st'.acted = st.acted ++ v)

/-- The walk invariant: no module or class is recorded twice, no class is
acted on twice, and the acted classes are exactly the visited classes that
satisfy the discovery predicate. -/

def WalkInv (st : WalkState N) : Prop :=
  st.pm.Nodup ∧ st.pc.Nodup ∧ st.acted.Nodup ∧
  ∀ c, c ∈ st.acted ↔ (c ∈ st.pc ∧ eligible c = true)

/-- Module `i` exposes class `c` under a binding name that does not start
with an underscore. -/

def goodClassEdge (g : Graph N) (i : Fin N) (c : PClass) : Prop :=
  ∃ nm, (nm, Sum.inl c) ∈ g.dict i ∧ pyStartsWith nm "_" = false

/-- Module `i` exposes module `j` under a binding name that does not start
with an underscore, and `j`'s `__name__` starts with `scikits.learn` — the
only way the walk ever recurses into `j`. -/

def goodModEdge (g : Graph N) (i j : Fin N) : Prop :=
  ∃ nm, (nm, Sum.inr j) ∈ g.dict i ∧ pyStartsWith nm "_" = false ∧
    pyStartsWith (g.name j) "scikits.learn" = true

/-- Every entered module other than the root was entered through a good
module edge from an entered module, and every visited class is exposed by an
entered module under a non-underscore name. -/

def EntryInv (g : Graph N) (root : Fin N) (st : WalkState N) : Prop :=
  (∀ j ∈ st.pm, j = root ∨ ∃ i ∈ st.pm, goodModEdge g i j) ∧
  (∀ c ∈ st.pc, ∃ i ∈ st.pm, goodClassEdge g i c)

/-- The adapters `wrap_scikits_algorithms` appends for one class: at most
one, none for excluded names. -/

def wOne (c : PClass) : List Adapter :=
  if pyTake c.name 4 = "Base" ∨ c.name = "LinearModel" then []
  else if c.classifierMixin then [wrap_scikits_classifier c]
  else if c.hasTransform then [wrap_scikits_transformer c]
  else if c.hasPredict then [wrap_scikits_predictor c]
  else []

/-- The `scikits_nodes` fold, started from an arbitrary prefix. -/

def mkNodes (cs : List PClass) : List Adapter :=
  cs.foldl (fun l c => wrap_scikits_algorithms c l) []

/-- Two distinct class objects sharing the `__name__` `Foo`. -/

def cFoo1 : PClass :=
  { pid := 10, name := "Foo", module := "scikits.learn.a",
    hasFit := true, hasPredict := true, hasTransform := false,
    classifierMixin := false }

def cFoo2 : PClass :=
  { pid := 11, name := "Foo", module := "scikits.learn.b",
    hasFit := false, hasPredict := true, hasTransform := false,
    classifierMixin := false }

/-- A one-module graph exposing the two same-named classes. -/

def gC : Graph 1 :=
  { name := fun _ => "scikits.learn",
    dict := fun _ => [("A", Sum.inl cFoo1), ("B", Sum.inl cFoo2)] }

/-! ## Theorems -/

example : (walkModule gW 2 ⟨[], [], []⟩ 0).isSome = true := by decide

example :
    walkModule gW 2 ⟨[], [], []⟩ 0 =
      some ⟨[0, 1], [cKMeans], [cKMeans]⟩ := by decide

example :
    ScikitsNode_label (fun m => m.map (fun r => r.length)) [[1, 2], [3]] =
      [[2], [1]] := by decide

/-- State extension is reflexive. -/
theorem stExt_refl (st : WalkState N) : StExt st st :=
  ⟨⟨[], by simp⟩, ⟨[], by simp⟩, ⟨[], by simp⟩⟩

/-- State extension is transitive. -/
theorem stExt_trans {a b c : WalkState N} (h1 : StExt a b) (h2 : StExt b c) :
    StExt a c := by
  obtain ⟨⟨t1, ht1⟩, ⟨u1, hu1⟩, ⟨v1, hv1⟩⟩ := h1
  obtain ⟨⟨t2, ht2⟩, ⟨u2, hu2⟩, ⟨v2, hv2⟩⟩ := h2
  exact ⟨⟨t1 ++ t2, by simp [ht2, ht1]⟩, ⟨u1 ++ u2, by simp [hu2, hu1]⟩,
         ⟨v1 ++ v2, by simp [hv2, hv1]⟩⟩

/-- Extension preserves membership in `processed_modules`. -/
theorem StExt.pm_mem {st st' : WalkState N} (h : StExt st st') {m : Fin N}
    (hm : m ∈ st.pm) : m ∈ st'.pm := by
  obtain ⟨⟨t, ht⟩, -, -⟩ := h
  rw [ht]; exact List.mem_append_left _ hm

/-- Extension never shrinks `processed_modules`. -/
theorem StExt.pm_length {st st' : WalkState N} (h : StExt st st') :
    st.pm.length ≤ st'.pm.length := by
  obtain ⟨⟨t, ht⟩, -, -⟩ := h
  simp [ht]

/-- `walkMembersF` only extends the state, provided the module-recursion
callback does. -/
theorem walkMembersF_ext (g : Graph N) (wm : WalkState N → Fin N → Option (WalkState N))
    (hwm : ∀ st m st', wm st m = some st' → StExt st st') :
    ∀ (lst : List (String × SkMember N)) (st st' : WalkState N),
      walkMembersF g wm st lst = some st' → StExt st st' := by
  intro lst
  induction lst with
  | nil =>
    intro st st' h
    simp only [walkMembersF, Option.some.injEq] at h
    rw [← h]; exact stExt_refl st
  | cons e rest ih =>
    obtain ⟨nm, mem⟩ := e
    intro st st' h
    simp only [walkMembersF] at h
    by_cases h1 : pyStartsWith nm "_" = true
    · rw [if_pos h1] at h; exact ih st st' h
    · rw [if_neg h1] at h
      cases mem with
      | inl c =>
        dsimp only at h
        by_cases h2 : c ∈ st.pc
        · rw [if_pos h2] at h; exact ih st st' h
        · rw [if_neg h2] at h
          refine stExt_trans ?_ (ih _ _ h)
          by_cases h3 : eligible c = true <;>
            simp [h3, StExt]
      | inr j =>
        dsimp only at h
        by_cases h2 : pyStartsWith (g.name j) "scikits.learn" = true
        · rw [if_pos h2] at h
          cases hw : wm st j with
          | none => rw [hw] at h; exact absurd h (by simp)
          | some stm =>
            rw [hw] at h
            exact stExt_trans (hwm _ _ _ hw) (ih _ _ h)
        · rw [if_neg h2] at h; exact ih st st' h

/-- `walkModule` only extends the state. -/
theorem walkModule_ext (g : Graph N) :
    ∀ (fuel : Nat) (st : WalkState N) (m : Fin N) (st' : WalkState N),
      walkModule g fuel st m = some st' → StExt st st' := by
  intro fuel
  induction fuel with
  | zero =>
    intro st m st' h
    simp only [walkModule] at h
    by_cases hm : m ∈ st.pm
    · rw [if_pos hm] at h
      simp only [Option.some.injEq] at h
      rw [← h]; exact stExt_refl st
    · rw [if_neg hm] at h; exact absurd h (by simp)
  | succ f ih =>
    intro st m st' h
    simp only [walkModule] at h
    by_cases hm : m ∈ st.pm
    · rw [if_pos hm] at h
      simp only [Option.some.injEq] at h
      rw [← h]; exact stExt_refl st
    · rw [if_neg hm] at h
      refine stExt_trans ?_ (walkMembersF_ext g _ ih _ _ _ h)
      exact ⟨⟨[m], rfl⟩, ⟨[], by simp⟩, ⟨[], by simp⟩⟩

/-- The initial state satisfies the walk invariant. -/
theorem walkInv_init : WalkInv (⟨[], [], []⟩ : WalkState N) := by
  refine ⟨List.nodup_nil, List.nodup_nil, List.nodup_nil, ?_⟩
  simp

/-- `walkMembersF` preserves the invariant, provided the module-recursion
callback does. -/
theorem walkMembersF_inv (g : Graph N) (wm : WalkState N → Fin N → Option (WalkState N))
    (hwm : ∀ st m st', wm st m = some st' → WalkInv st → WalkInv st') :
    ∀ (lst : List (String × SkMember N)) (st st' : WalkState N),
      walkMembersF g wm st lst = some st' → WalkInv st → WalkInv st' := by
  intro lst
  induction lst with
  | nil =>
    intro st st' h hinv
    simp only [walkMembersF, Option.some.injEq] at h
    rw [← h]; exact hinv
  | cons e rest ih =>
    obtain ⟨nm, mem⟩ := e
    intro st st' h hinv
    simp only [walkMembersF] at h
    by_cases h1 : pyStartsWith nm "_" = true
    · rw [if_pos h1] at h; exact ih st st' h hinv
    · rw [if_neg h1] at h
      cases mem with
      | inl c =>
        dsimp only at h
        by_cases h2 : c ∈ st.pc
        · rw [if_pos h2] at h; exact ih st st' h hinv
        · rw [if_neg h2] at h
          refine ih _ _ h ?_
          obtain ⟨hpm, hpc, hact, hchar⟩ := hinv
          have hcact : c ∉ st.acted := fun hin => h2 ((hchar c).mp hin).1
          by_cases h3 : eligible c = true
          · simp only [h3, if_pos]
            refine ⟨hpm, ?_, ?_, ?_⟩
            · simp [List.nodup_append, hpc, h2]
            · simp [List.nodup_append, hact, hcact]
            · intro c'
              by_cases hcc : c' = c
              · subst hcc; simp [h3]
              · simpa [hcc] using hchar c'
          · simp only [h3, if_neg, Bool.false_eq_true, not_false_iff]
            refine ⟨hpm, ?_, hact, ?_⟩
            · simp [List.nodup_append, hpc, h2]
            · intro c'
              by_cases hcc : c' = c
              · subst hcc; simp [h3, hcact]
              · simpa [hcc] using hchar c'
      | inr j =>
        dsimp only at h
        by_cases h2 : pyStartsWith (g.name j) "scikits.learn" = true
        · rw [if_pos h2] at h
          cases hw : wm st j with
          | none => rw [hw] at h; exact absurd h (by simp)
          | some stm =>
            rw [hw] at h
            exact ih _ _ h (hwm _ _ _ hw hinv)
        · rw [if_neg h2] at h; exact ih st st' h hinv

/-- `walkModule` preserves the invariant. -/
theorem walkModule_inv (g : Graph N) :
    ∀ (fuel : Nat) (st : WalkState N) (m : Fin N) (st' : WalkState N),
      walkModule g fuel st m = some st' → WalkInv st → WalkInv st' := by
  intro fuel
  induction fuel with
  | zero =>
    intro st m st' h hinv
    simp only [walkModule] at h
    by_cases hm : m ∈ st.pm
    · rw [if_pos hm] at h
      simp only [Option.some.injEq] at h
      rw [← h]; exact hinv
    · rw [if_neg hm] at h; exact absurd h (by simp)
  | succ f ih =>
    intro st m st' h hinv
    simp only [walkModule] at h
    by_cases hm : m ∈ st.pm
    · rw [if_pos hm] at h
      simp only [Option.some.injEq] at h
      rw [← h]; exact hinv
    · rw [if_neg hm] at h
      refine walkMembersF_inv g _ ih _ _ _ h ?_
      obtain ⟨hpm, hpc, hact, hchar⟩ := hinv
      exact ⟨by simp [List.nodup_append, hpm, hm], hpc, hact, hchar⟩

/-- `walkMembersF` completes, provided the module-recursion callback
completes under the fuel bound `k`, preserves the invariant and extends the
state. -/
theorem walkMembersF_some (g : Graph N) (wm : WalkState N → Fin N → Option (WalkState N))
    (k : Nat)
    (hwm_inv : ∀ st m st', wm st m = some st' → WalkInv st → WalkInv st')
    (hwm_ext : ∀ st m st', wm st m = some st' → StExt st st')
    (hwm_some : ∀ st m, WalkInv st → N ≤ st.pm.length + k → (wm st m).isSome) :
    ∀ (lst : List (String × SkMember N)) (st : WalkState N),
      WalkInv st → N ≤ st.pm.length + k →
      (walkMembersF g wm st lst).isSome := by
  intro lst
  induction lst with
  | nil => intro st _ _; simp [walkMembersF]
  | cons e rest ih =>
    obtain ⟨nm, mem⟩ := e
    intro st hinv hlen
    simp only [walkMembersF]
    by_cases h1 : pyStartsWith nm "_" = true
    · rw [if_pos h1]; exact ih st hinv hlen
    · rw [if_neg h1]
      cases mem with
      | inl c =>
        dsimp only
        by_cases h2 : c ∈ st.pc
        · rw [if_pos h2]; exact ih st hinv hlen
        · rw [if_neg h2]
          obtain ⟨hpm, hpc, hact, hchar⟩ := hinv
          have hcact : c ∉ st.acted := fun hin => h2 ((hchar c).mp hin).1
          by_cases h3 : eligible c = true
          · simp only [h3, if_pos]
            refine ih _ ⟨hpm, ?_, ?_, ?_⟩ hlen
            · simp [List.nodup_append, hpc, h2]
            · simp [List.nodup_append, hact, hcact]
            · intro c'
              by_cases hcc : c' = c
              · subst hcc; simp [h3]
              · simpa [hcc] using hchar c'
          · simp only [h3, if_neg, Bool.false_eq_true, not_false_iff]
            refine ih _ ⟨hpm, ?_, hact, ?_⟩ hlen
            · simp [List.nodup_append, hpc, h2]
            · intro c'
              by_cases hcc : c' = c
              · subst hcc; simp [h3, hcact]
              · simpa [hcc] using hchar c'
      | inr j =>
        dsimp only
        by_cases h2 : pyStartsWith (g.name j) "scikits.learn" = true
        · rw [if_pos h2]
          have hs := hwm_some st j hinv hlen
          cases hw : wm st j with
          | none => rw [hw] at hs; exact absurd hs (by simp)
          | some stm =>
            have hlen' : N ≤ stm.pm.length + k :=
              le_trans hlen (by
                have := (hwm_ext _ _ _ hw).pm_length
                omega)
            exact ih stm (hwm_inv _ _ _ hw hinv) hlen'
        · rw [if_neg h2]; exact ih st hinv hlen

/-- With at least `N - st.pm.length` fuel the walk completes: each module
entry appends a fresh module to a duplicate-free list over `Fin N`, so the
recursion depth never exceeds `N`.  This is the termination argument for the
unbounded Python recursion. -/
theorem walkModule_some (g : Graph N) :
    ∀ (fuel : Nat) (st : WalkState N) (m : Fin N),
      WalkInv st → N ≤ st.pm.length + fuel →
      (walkModule g fuel st m).isSome := by
  intro fuel
  induction fuel with
  | zero =>
    intro st m hinv hlen
    simp only [walkModule]
    by_cases hm : m ∈ st.pm
    · rw [if_pos hm]; simp
    · exfalso
      have hnd : (st.pm ++ [m]).Nodup := by
        simp [List.nodup_append, hinv.1, hm]
      have hcard := hnd.length_le_card
      simp [Fintype.card_fin] at hcard
      omega
  | succ f ih =>
    intro st m hinv hlen
    simp only [walkModule]
    by_cases hm : m ∈ st.pm
    · rw [if_pos hm]; simp
    · rw [if_neg hm]
      refine walkMembersF_some g _ f (walkModule_inv g f) (walkModule_ext g f)
        ih (g.dict m) _ ?_ ?_
      · obtain ⟨hpm, hpc, hact, hchar⟩ := hinv
        exact ⟨by simp [List.nodup_append, hpm, hm], hpc, hact, hchar⟩
      · simp only [List.length_append, List.length_singleton]
        omega

/-- The initial state satisfies the entry invariant. -/
theorem entryInv_init (g : Graph N) (root : Fin N) :
    EntryInv g root (⟨[], [], []⟩ : WalkState N) := by
  constructor <;> intro x hx <;> simp at hx

/-- `walkMembersF`, run on members of an entered module `m0`, preserves the
entry invariant. -/
theorem walkMembersF_entry (g : Graph N) (root : Fin N)
    (wm : WalkState N → Fin N → Option (WalkState N))
    (hwm : ∀ st m st', wm st m = some st' → EntryInv g root st →
      (m = root ∨ ∃ i ∈ st.pm, goodModEdge g i m) → EntryInv g root st')
    (hwm_ext : ∀ st m st', wm st m = some st' → StExt st st')
    (m0 : Fin N) :
    ∀ (lst : List (String × SkMember N)) (st st' : WalkState N),
      (∀ e ∈ lst, e ∈ g.dict m0) → m0 ∈ st.pm →
      walkMembersF g wm st lst = some st' → EntryInv g root st →
      EntryInv g root st' := by
  intro lst
  induction lst with
  | nil =>
    intro st st' _ _ h hinv
    simp only [walkMembersF, Option.some.injEq] at h
    rw [← h]; exact hinv
  | cons e rest ih =>
    obtain ⟨nm, mem⟩ := e
    intro st st' hsub hm0 h hinv
    have hsub' : ∀ e ∈ rest, e ∈ g.dict m0 := fun e he => hsub e (by simp [he])
    simp only [walkMembersF] at h
    by_cases h1 : pyStartsWith nm "_" = true
    · rw [if_pos h1] at h; exact ih st st' hsub' hm0 h hinv
    · rw [if_neg h1] at h
      have h1' : pyStartsWith nm "_" = false := by
        simpa [Bool.not_eq_true] using h1
      cases mem with
      | inl c =>
        dsimp only at h
        by_cases h2 : c ∈ st.pc
        · rw [if_pos h2] at h; exact ih st st' hsub' hm0 h hinv
        · rw [if_neg h2] at h
          refine ih _ _ hsub' ?_ h ?_
          · by_cases h3 : eligible c = true <;> simp [h3, hm0]
          · obtain ⟨hmods, hcls⟩ := hinv
            have hedge : goodClassEdge g m0 c :=
              ⟨nm, hsub (nm, Sum.inl c) (by simp), h1'⟩
            by_cases h3 : eligible c = true <;>
              · simp only [h3, if_pos, if_neg, Bool.false_eq_true, not_false_iff]
                refine ⟨hmods, ?_⟩
                intro c' hc'
                simp only [List.mem_append, List.mem_singleton] at hc'
                rcases hc' with hc' | hc'
                · exact hcls c' hc'
                · subst hc'; exact ⟨m0, hm0, hedge⟩
      | inr j =>
        dsimp only at h
        by_cases h2 : pyStartsWith (g.name j) "scikits.learn" = true
        · rw [if_pos h2] at h
          cases hw : wm st j with
          | none => rw [hw] at h; exact absurd h (by simp)
          | some stm =>
            rw [hw] at h
            have hedge : goodModEdge g m0 j :=
              ⟨nm, hsub (nm, Sum.inr j) (by simp), h1', h2⟩
            have hinv' := hwm _ _ _ hw hinv (Or.inr ⟨m0, hm0, hedge⟩)
            exact ih _ _ hsub' ((hwm_ext _ _ _ hw).pm_mem hm0) h hinv'
        · rw [if_neg h2] at h; exact ih st st' hsub' hm0 h hinv

/-- `walkModule` preserves the entry invariant, provided the module it is
called on is the root or is reached through a good module edge. -/
theorem walkModule_entry (g : Graph N) (root : Fin N) :
    ∀ (fuel : Nat) (st : WalkState N) (m : Fin N) (st' : WalkState N),
      walkModule g fuel st m = some st' → EntryInv g root st →
      (m = root ∨ ∃ i ∈ st.pm, goodModEdge g i m) →
      EntryInv g root st' := by
  intro fuel
  induction fuel with
  | zero =>
    intro st m st' h hinv _
    simp only [walkModule] at h
    by_cases hm : m ∈ st.pm
    · rw [if_pos hm] at h
      simp only [Option.some.injEq] at h
      rw [← h]; exact hinv
    · rw [if_neg hm] at h; exact absurd h (by simp)
  | succ f ih =>
    intro st m st' h hinv hentry
    simp only [walkModule] at h
    by_cases hm : m ∈ st.pm
    · rw [if_pos hm] at h
      simp only [Option.some.injEq] at h
      rw [← h]; exact hinv
    · rw [if_neg hm] at h
      obtain ⟨hmods, hcls⟩ := hinv
      refine walkMembersF_entry g root _ ih (walkModule_ext g f) m (g.dict m)
        _ _ (fun e he => he) (by simp) h ⟨?_, ?_⟩
      · intro j hj
        simp only [List.mem_append, List.mem_singleton] at hj
        rcases hj with hj | hj
        · rcases hmods j hj with hr | ⟨i, hi, hgood⟩
          · exact Or.inl hr
          · exact Or.inr ⟨i, by simp [hi], hgood⟩
        · subst hj
          rcases hentry with hr | ⟨i, hi, hgood⟩
          · exact Or.inl hr
          · exact Or.inr ⟨i, by simp [hi], hgood⟩
      · intro c hc
        obtain ⟨i, hi, hgood⟩ := hcls c hc
        exact ⟨i, by simp [hi], hgood⟩

/-- `wrap_scikits_algorithms` appends `wOne c` to the accumulator. -/
theorem wrap_eq_append (c : PClass) (l : List Adapter) :
    wrap_scikits_algorithms c l = l ++ wOne c := by
  simp only [wrap_scikits_algorithms, wOne]
  repeat' split
  all_goals simp

/-- Facts about any adapter produced for class `c`. -/
theorem wOne_mem_facts (c : PClass) (a : Adapter) (ha : a ∈ wOne c) :
    a.wrapped = c ∧ a.name = c.name ++ "ScikitsLearnNode" ∧
    pyTake c.name 4 ≠ "Base" ∧ c.name ≠ "LinearModel" := by
  simp only [wOne] at ha
  split at ha
  · simp at ha
  · rename_i hexc
    push_neg at hexc
    repeat' split at ha
    all_goals
      simp only [List.mem_singleton, List.not_mem_nil] at ha
    · exact ha ▸ ⟨rfl, rfl, hexc.1, hexc.2⟩
    · exact ha ▸ ⟨rfl, rfl, hexc.1, hexc.2⟩
    · exact ha ▸ ⟨rfl, rfl, hexc.1, hexc.2⟩

/-- The `scikits_nodes` fold, started from an arbitrary prefix. -/
theorem foldl_wrap_append (cs : List PClass) :
    ∀ init : List Adapter,
      cs.foldl (fun l c => wrap_scikits_algorithms c l) init = init ++ mkNodes cs := by
  induction cs with
  | nil => intro init; simp [mkNodes]
  | cons c cs ih =>
    intro init
    have h1 : mkNodes (c :: cs) = wOne c ++ mkNodes cs := by
      simp only [mkNodes, List.foldl_cons]
      rw [wrap_eq_append, List.nil_append, ih (wOne c)]; rfl
    rw [List.foldl_cons, wrap_eq_append, ih (init ++ wOne c), h1, List.append_assoc]

/-- Unfolding `mkNodes` one class at a time. -/
theorem mkNodes_cons (c : PClass) (cs : List PClass) :
    mkNodes (c :: cs) = wOne c ++ mkNodes cs := by
  simp only [mkNodes, List.foldl_cons]
  rw [wrap_eq_append, List.nil_append, foldl_wrap_append cs (wOne c)]; rfl

/-- Membership in the synthesized adapter list. -/
theorem mem_mkNodes (cs : List PClass) (a : Adapter) :
    a ∈ mkNodes cs ↔ ∃ c ∈ cs, a ∈ wOne c := by
  induction cs with
  | nil => simp [mkNodes]
  | cons c cs ih => simp [mkNodes_cons, ih]

/-- `wOne` is empty or a singleton wrapping `c` itself. -/
theorem wOne_cases (c : PClass) :
    wOne c = [] ∨ ∃ a, wOne c = [a] ∧ a.wrapped = c := by
  simp only [wOne]
  repeat' split
  all_goals simp [wrap_scikits_classifier, wrap_scikits_transformer,
    wrap_scikits_predictor]

/-- The wrapped classes of the synthesized adapters form a sublist of the
acted classes: no class is wrapped twice. -/
theorem mkNodes_wrapped_sublist (cs : List PClass) :
    List.Sublist ((mkNodes cs).map (fun a => a.wrapped)) cs := by
  induction cs with
  | nil => simp [mkNodes]
  | cons c cs ih =>
    rw [mkNodes_cons, List.map_append]
    rcases wOne_cases c with h | ⟨a, h, hw⟩
    · rw [h]; simp only [List.map_nil, List.nil_append]
      exact ih.cons c
    · rw [h]; simp only [List.map_cons, List.map_nil, List.singleton_append, hw]
      exact ih.cons₂ c

/-- Inserting a fresh key appends. -/
theorem dictInsert_not_mem (d : List (String × Adapter)) (k : String) (v : Adapter)
    (h : k ∉ d.map Prod.fst) : dictInsert d k v = d ++ [(k, v)] := by
  induction d with
  | nil => rfl
  | cons e rest ih =>
    obtain ⟨k', v'⟩ := e
    simp only [List.map_cons, List.mem_cons, not_or] at h
    simp only [dictInsert, if_neg (Ne.symm h.1), List.cons_append]
    rw [ih h.2]

/-- When the adapter names are pairwise distinct, the registry build is the
plain association list of (name, adapter) pairs. -/
theorem DICT_build_gen (nodes : List Adapter) :
    ∀ d : List (String × Adapter),
      (d.map Prod.fst ++ nodes.map (fun a => a.name)).Nodup →
      nodes.foldl (fun d a => dictInsert d a.name a) d =
        d ++ nodes.map (fun a => (a.name, a)) := by
  induction nodes with
  | nil => intro d _; simp
  | cons a rest ih =>
    intro d hnd
    have hfresh : a.name ∉ d.map Prod.fst := by
      intro hmem
      have := (List.nodup_append.mp hnd).2.2
      exact this hmem (by simp)
    simp only [List.foldl_cons, dictInsert_not_mem d a.name a hfresh]
    have hnd' : ((d ++ [(a.name, a)]).map Prod.fst ++
        rest.map (fun a => a.name)).Nodup := by
      simp only [List.map_append, List.map_cons, List.map_nil, List.append_assoc,
        List.singleton_append]
      simpa [List.append_assoc] using hnd
    rw [ih _ hnd']
    simp

/-- The registry under distinct names, from the empty dictionary. -/
theorem DICT_build_eq_map (nodes : List Adapter)
    (h : (nodes.map (fun a => a.name)).Nodup) :
    DICT_build nodes = nodes.map (fun a => (a.name, a)) := by
  simpa [DICT_build] using DICT_build_gen nodes [] (by simpa using h)

/-- Lookup in a plain association list with distinct keys finds each
element's own binding. -/
theorem dictGet_map_pair (nodes : List Adapter)
    (h : (nodes.map (fun a => a.name)).Nodup) :
    ∀ a ∈ nodes, dictGet (nodes.map (fun a => (a.name, a))) a.name = some a := by
  induction nodes with
  | nil => intro a ha; simp at ha
  | cons b rest ih =>
    intro a ha
    simp only [List.map_cons, List.nodup_cons] at h
    simp only [List.mem_cons] at ha
    rcases ha with ha | ha
    · subst ha; simp [dictGet]
    · have hne : b.name ≠ a.name := by
        intro he
        exact h.1 (he ▸ List.mem_map_of_mem (fun a => a.name) ha)
      simp only [List.map_cons, dictGet, if_neg hne]
      exact ih h.2 a ha

/-- Every binding ever present in `dictInsert d k v` comes from `d` or is the
new binding. -/
theorem mem_dictInsert (d : List (String × Adapter)) (k : String) (v : Adapter)
    (e : String × Adapter) (he : e ∈ dictInsert d k v) :
    e ∈ d ∨ e = (k, v) := by
  induction d with
  | nil => simpa [dictInsert] using he
  | cons b rest ih =>
    obtain ⟨k', v'⟩ := b
    simp only [dictInsert] at he
    split at he
    · rename_i hk
      subst hk
      simp only [List.mem_cons] at he
      rcases he with he | he
      · exact Or.inr he
      · exact Or.inl (by simp [he])
    · simp only [List.mem_cons] at he
      rcases he with he | he
      · exact Or.inl (by simp [he])
      · rcases ih he with h | h
        · exact Or.inl (by simp [h])
        · exact Or.inr h

/-- Every binding of the built registry maps some synthesized adapter's name
to that adapter. -/
theorem DICT_build_values (nodes : List Adapter) :
    ∀ (d : List (String × Adapter)) (e : String × Adapter),
      e ∈ nodes.foldl (fun d a => dictInsert d a.name a) d →
      e ∈ d ∨ ∃ a ∈ nodes, e = (a.name, a) := by
  induction nodes with
  | nil => intro d e he; simp only [List.foldl_nil] at he; exact Or.inl he
  | cons a rest ih =>
    intro d e he
    simp only [List.foldl_cons] at he
    rcases ih _ _ he with h | ⟨b, hb, hbe⟩
    · rcases mem_dictInsert _ _ _ _ h with h' | h'
      · exact Or.inl h'
      · exact Or.inr ⟨a, by simp, h'⟩
    · exact Or.inr ⟨b, by simp [hb], hbe⟩

/-- Helper: once the walk result is known, `scikits_nodes` is the wrap fold
over the recorded action sequence. -/
theorem scikits_nodes_eq {N : Nat} (g : Graph N) (root : Fin N) (st : WalkState N)
    (h : walkModule g N ⟨[], [], []⟩ root = some st) :
    scikits_nodes g root = mkNodes st.acted := by
  simp [scikits_nodes, h, mkNodes]

/-- Every synthesized adapter wraps a class that passed the discovery
predicate and the exclusion rule, and carries the derived name. -/
theorem scikits_nodes_mem {N : Nat} (g : Graph N) (root : Fin N) (a : Adapter)
    (ha : a ∈ scikits_nodes g root) :
    eligible a.wrapped = true ∧ a.name = a.wrapped.name ++ "ScikitsLearnNode" ∧
    pyTake a.wrapped.name 4 ≠ "Base" ∧ a.wrapped.name ≠ "LinearModel" := by
  cases h : walkModule g N ⟨[], [], []⟩ root with
  | none =>
    rw [show scikits_nodes g root = [] from by simp [scikits_nodes, h]] at ha
    simp at ha
  | some st =>
    rw [scikits_nodes_eq g root st h] at ha
    obtain ⟨c, hc, hac⟩ := (mem_mkNodes _ _).mp ha
    obtain ⟨hw, hname, hb, hl⟩ := wOne_mem_facts c a hac
    have hchar := (walkModule_inv g N _ root _ h walkInv_init).2.2.2
    have he : eligible c = true := ((hchar c).mp hc).2
    rw [hw]
    exact ⟨he, hname, hb, hl⟩

/-- C1: on any namespace graph, the discovery walk acts exactly once on each
inspected class satisfying the predicate (`fit`/`predict`/`transform`
present, module name not ending in an underscore), however many module paths
reach it; every inspected class is recorded as visited whether or not the
predicate holds, and the returned visited-class list is duplicate-free. -/
theorem claim_C1 {N : Nat} (g : Graph N) (root : Fin N) (st' : WalkState N)
    (h : walkModule g N ⟨[], [], []⟩ root = some st') :
    st'.pc.Nodup ∧ st'.acted.Nodup ∧
    (∀ c, c ∈ st'.acted ↔ (c ∈ st'.pc ∧ eligible c = true)) ∧
    (∀ c ∈ st'.pc, eligible c = true → st'.acted.count c = 1) ∧
    apply_to_scikits_algorithms g N root = some st'.pc := by
  obtain ⟨hpm, hpc, hact, hchar⟩ := walkModule_inv g N _ root _ h walkInv_init
  refine ⟨hpc, hact, hchar, ?_, ?_⟩
  · intro c hc he
    exact List.count_eq_one_of_mem hact ((hchar c).mpr ⟨hc, he⟩)
  · simp [apply_to_scikits_algorithms, h]

/-- C1 witness: the cyclic two-module graph `gW`, where `cKMeans` is
reachable through two module paths, yields it exactly once. -/
theorem claim_C1_witness :
    walkModule gW 2 ⟨[], [], []⟩ 0 = some ⟨[0, 1], [cKMeans], [cKMeans]⟩ ∧
    ([cKMeans] : List PClass).Nodup ∧
    ([cKMeans] : List PClass).count cKMeans = 1 :=
  ⟨by decide,
   (claim_C1 gW 0 ⟨[0, 1], [cKMeans], [cKMeans]⟩ (by decide)).1,
   (claim_C1 gW 0 ⟨[0, 1], [cKMeans], [cKMeans]⟩ (by decide)).2.2.2.1 cKMeans
     (by decide) (by decide)⟩

/-- C2: on any finite namespace graph, cyclic or not, the walk terminates —
a fuel of `N` (one per module) always completes — and each module is entered
at most once (the processed-modules list stays duplicate-free). -/
theorem claim_C2 {N : Nat} (g : Graph N) (root : Fin N) (fuel : Nat) (hf : N ≤ fuel) :
    (walkModule g fuel ⟨[], [], []⟩ root).isSome = true ∧
    ∀ st', walkModule g fuel ⟨[], [], []⟩ root = some st' → st'.pm.Nodup := by
  refine ⟨walkModule_some g fuel _ root walkInv_init (by simpa using hf), ?_⟩
  intro st' h
  exact (walkModule_inv g fuel _ root st' h walkInv_init).1

/-- C2 witness: the walk completes on the cyclic graph `gW` (module 0
references module 1 and vice versa). -/
theorem claim_C2_witness :
    2 ≤ 2 ∧ (walkModule gW 2 ⟨[], [], []⟩ 0).isSome = true :=
  ⟨by decide, (claim_C2 gW 0 2 (by decide)).1⟩

/-- C3 counterexample: with two distinct class objects both named `Foo`, both
adapters are synthesized with the same derived name; the registry maps that
name to the later adapter, so it does not map the earlier adapter's name to
that adapter, and the derived names are not unique. -/
theorem claim_C3_counterexample :
    wrap_scikits_predictor cFoo1 ∈ scikits_nodes gC 0 ∧
    dictGet (DICT_ gC 0) (wrap_scikits_predictor cFoo1).name =
      some (wrap_scikits_predictor cFoo2) ∧
    wrap_scikits_predictor cFoo1 ≠ wrap_scikits_predictor cFoo2 ∧
    ¬ ((scikits_nodes gC 0).map (fun a => a.name)).Nodup := by decide

/-- C3 (amended): provided the synthesized adapters' derived names are
pairwise distinct, the registry maps each adapter's derived name (wrapped
class name plus the suffix) to that adapter, its keys are unique, every
registry entry is a synthesized adapter whose wrapped class passed the
capability predicate and the exclusion rule, and distinct adapters wrap
distinct classes. -/
theorem claim_C3_amended {N : Nat} (g : Graph N) (root : Fin N)
    (hn : ((scikits_nodes g root).map (fun a => a.name)).Nodup) :
    (∀ a ∈ scikits_nodes g root, dictGet (DICT_ g root) a.name = some a) ∧
    ((DICT_ g root).map Prod.fst).Nodup ∧
    (∀ e ∈ DICT_ g root, e.1 = e.2.name ∧ e.2 ∈ scikits_nodes g root ∧
      e.2.name = e.2.wrapped.name ++ "ScikitsLearnNode" ∧
      eligible e.2.wrapped = true ∧
      pyTake e.2.wrapped.name 4 ≠ "Base" ∧ e.2.wrapped.name ≠ "LinearModel") ∧
    ((scikits_nodes g root).map (fun a => a.wrapped)).Nodup := by
  have hD : DICT_ g root = (scikits_nodes g root).map (fun a => (a.name, a)) := by
    unfold DICT_
    exact DICT_build_eq_map _ hn
  refine ⟨?_, ?_, ?_, ?_⟩
  · intro a ha
    rw [hD]
    exact dictGet_map_pair _ hn a ha
  · rw [hD]
    simpa [List.map_map, Function.comp] using hn
  · intro e he
    rw [hD] at he
    obtain ⟨a, ha, hea⟩ := List.mem_map.mp he
    obtain ⟨helig, hname, hb, hl⟩ := scikits_nodes_mem g root a ha
    rw [← hea]
    exact ⟨rfl, ha, hname, helig, hb, hl⟩
  · cases h : walkModule g N ⟨[], [], []⟩ root with
    | none => simp [scikits_nodes, h]
    | some st =>
      rw [scikits_nodes_eq g root st h]
      have hact := (walkModule_inv g N _ root _ h walkInv_init).2.2.1
      exact List.Nodup.sublist (mkNodes_wrapped_sublist st.acted) hact

/-- C3 witness: on `gW` the names are distinct and the registry maps each
adapter's name to itself. -/
theorem claim_C3_witness :
    ((scikits_nodes gW 0).map (fun a => a.name)).Nodup ∧
    ∀ a ∈ scikits_nodes gW 0, dictGet (DICT_ gW 0) a.name = some a :=
  ⟨by decide, (claim_C3_amended gW 0 (by decide)).1⟩

/-- C4: for a class not excluded by name, routing precedence is: classifier
adapter iff the class is a `ClassifierMixin` subclass; else transformer
adapter iff it has `transform`; else predictor adapter iff it has `predict`;
else nothing is appended and no error is raised. -/
theorem claim_C4 (c : PClass) (l : List Adapter)
    (hb : pyTake c.name 4 ≠ "Base") (hl : c.name ≠ "LinearModel") :
    (wrap_scikits_algorithms c l = l ++ [wrap_scikits_classifier c] ↔
      c.classifierMixin = true) ∧
    (wrap_scikits_algorithms c l = l ++ [wrap_scikits_transformer c] ↔
      (c.classifierMixin = false ∧ c.hasTransform = true)) ∧
    (wrap_scikits_algorithms c l = l ++ [wrap_scikits_predictor c] ↔
      (c.classifierMixin = false ∧ c.hasTransform = false ∧
        c.hasPredict = true)) ∧
    (wrap_scikits_algorithms c l = l ↔
      (c.classifierMixin = false ∧ c.hasTransform = false ∧
        c.hasPredict = false)) := by
  have hexc : ¬(pyTake c.name 4 = "Base" ∨ c.name = "LinearModel") := by
    simp [hb, hl]
  simp only [wrap_scikits_algorithms, if_neg hexc]
  cases hm : c.classifierMixin <;> cases ht : c.hasTransform <;>
    cases hp : c.hasPredict <;>
    simp [hm, ht, hp, wrap_scikits_classifier, wrap_scikits_transformer,
      wrap_scikits_predictor]

/-- C4 witness: `cKMeans` (no mixin, no transform, has predict) is routed to
the predictor factory. -/
theorem claim_C4_witness :
    (pyTake cKMeans.name 4 ≠ "Base" ∧ cKMeans.name ≠ "LinearModel") ∧
    (wrap_scikits_algorithms cKMeans [] = [] ++ [wrap_scikits_predictor cKMeans] ↔
      (cKMeans.classifierMixin = false ∧ cKMeans.hasTransform = false ∧
        cKMeans.hasPredict = true)) :=
  ⟨⟨by decide, by decide⟩, (claim_C4 cKMeans [] (by decide) (by decide)).2.2.1⟩

/-- C5: for each of the three adapter shapes, constructing with an explicit
(non-None) output dimensionality raises `ScikitsException` — a subclass of
the framework's `NodeException` — with the `_OUTPUTDIM_ERROR` message, and
no wrapped instance is constructed. -/
theorem claim_C5 (c : PClass) (input_dim : Option Nat) (d : Nat)
    (dtype : Option String) (kwargs : List (String × String)) :
    ScikitsNode_classifier_init c input_dim (some d) dtype kwargs =
      (Except.error ⟨ExcClass.ScikitsException, _OUTPUTDIM_ERROR⟩, []) ∧
    ScikitsNode_transformer_init c input_dim (some d) dtype kwargs =
      (Except.error ⟨ExcClass.ScikitsException, _OUTPUTDIM_ERROR⟩, []) ∧
    ScikitsNode_predictor_init c input_dim (some d) dtype kwargs =
      (Except.error ⟨ExcClass.ScikitsException, _OUTPUTDIM_ERROR⟩, []) ∧
    excIsSubclass ExcClass.ScikitsException ExcClass.NodeException = true :=
  ⟨rfl, rfl, rfl, rfl⟩

/-- C6: the classifier adapter's label operation reshapes a flat length-`N`
prediction for an `N`-row batch into an `(N, 1)` column. -/
theorem claim_C6 {α β : Type} (predict : List (List α) → List β)
    (x : List (List α)) (h : (predict x).length = x.length) :
    (ScikitsNode_label predict x).length = x.length ∧
    ∀ r ∈ ScikitsNode_label predict x, r.length = 1 := by
  refine ⟨by simp [ScikitsNode_label, h], ?_⟩
  intro r hr
  simp only [ScikitsNode_label, List.mem_map] at hr
  obtain ⟨v, -, hv⟩ := hr
  simp [← hv]

/-- C6 witness: a stub predict returning one value per row, on a two-row
batch. -/
theorem claim_C6_witness :
    ((fun m : List (List Nat) => m.map (fun _ => 0)) [[1], [2, 3]]).length =
      ([[1], [2, 3]] : List (List Nat)).length ∧
    (ScikitsNode_label (fun m : List (List Nat) => m.map (fun _ => 0))
      [[1], [2, 3]]).length = ([[1], [2, 3]] : List (List Nat)).length :=
  ⟨by decide,
   (claim_C6 (fun m : List (List Nat) => m.map (fun _ => 0)) [[1], [2, 3]]
     (by decide)).1⟩

/-- C7: the transformer adapter's execute operation passes the input object
to the wrapped `transform` unchanged and returns its result unmodified. -/
theorem claim_C7 {α β : Type} (transform : α → β) (x : α) :
    ScikitsNode_transformer_execute transform x = transform x := rfl

/-- C8: for each of the three adapter shapes, `is_trainable()` is true iff
the wrapped class has a `fit` attribute; it is a class-level fact, computed
from the wrapped class alone. -/
theorem claim_C8 (c : PClass) :
    ((wrap_scikits_classifier c).is_trainable = true ↔ c.hasFit = true) ∧
    ((wrap_scikits_transformer c).is_trainable = true ↔ c.hasFit = true) ∧
    ((wrap_scikits_predictor c).is_trainable = true ↔ c.hasFit = true) :=
  ⟨Iff.rfl, Iff.rfl, Iff.rfl⟩

/-- C9: no class whose name starts with `Base` or equals `LinearModel` ever
has an adapter in the final registry: every registry entry wraps a
non-excluded class. -/
theorem claim_C9 {N : Nat} (g : Graph N) (root : Fin N) (e : String × Adapter)
    (he : e ∈ DICT_ g root) :
    pyTake e.2.wrapped.name 4 ≠ "Base" ∧ e.2.wrapped.name ≠ "LinearModel" := by
  unfold DICT_ DICT_build at he
  rcases DICT_build_values _ [] e he with h | ⟨a, ha, hea⟩
  · simp at h
  · have hfacts := scikits_nodes_mem g root a ha
    rw [hea]
    exact ⟨hfacts.2.2.1, hfacts.2.2.2⟩

/-- C9 witness: the registry built over `gW` and its single entry. -/
theorem claim_C9_witness :
    ("KMeansScikitsLearnNode", wrap_scikits_predictor cKMeans) ∈ DICT_ gW 0 ∧
    pyTake ("KMeansScikitsLearnNode",
      wrap_scikits_predictor cKMeans).2.wrapped.name 4 ≠ "Base" :=
  ⟨by decide, (claim_C9 gW 0 _ (by decide)).1⟩

/-- C10: every member bound under an underscore-prefixed name is skipped
entirely: a module is only ever entered through a non-underscore binding
whose target module name starts with `scikits.learn` (or is the root), and
every visited class is exposed by an entered module under a non-underscore
binding. -/
theorem claim_C10 {N : Nat} (g : Graph N) (root : Fin N) (st' : WalkState N)
    (h : walkModule g N ⟨[], [], []⟩ root = some st') :
    (∀ j ∈ st'.pm, j = root ∨ ∃ i ∈ st'.pm, goodModEdge g i j) ∧
    (∀ c ∈ st'.pc, ∃ i ∈ st'.pm, goodClassEdge g i c) :=
  walkModule_entry g root N _ root st' h (entryInv_init g root) (Or.inl rfl)

/-- C10 witness: in `gW`, the class `cHidden` bound only as `_h` is never
visited, and every visited class has a non-underscore binding in an entered
module. -/
theorem claim_C10_witness :
    walkModule gW 2 ⟨[], [], []⟩ 0 = some ⟨[0, 1], [cKMeans], [cKMeans]⟩ ∧
    cHidden ∉ ([cKMeans] : List PClass) ∧
    ∀ c ∈ ([cKMeans] : List PClass),
      ∃ i ∈ ([0, 1] : List (Fin 2)), goodClassEdge gW i c :=
  ⟨by decide, by decide,
   (claim_C10 gW 0 ⟨[0, 1], [cKMeans], [cKMeans]⟩ (by decide)).2⟩
